import Mathlib

/-!
A verification development for the binary-introspection engine of the
asm-viewer program (`src/main.rs`).  The Rust code is shallowly embedded:
`u64`/`usize` values become `Nat` with explicit `2 ^ 64` bounds checks at
every checked or converting operation, `HashMap` becomes a unique-key
association list, fallible operations return `Option`, and the external
crates (`object` for container parsing, `iced_x86` for instruction
decoding and formatting, `symbolic_demangle` for demangling) appear as
oracle parameters whose results feed the embedded logic, which is
translated line by line from the source.
-/

namespace AsmViewer

/-! ## Machine arithmetic (u64 / usize, both 64-bit on the target) -/

def u64Limit : Nat := 2 ^ 64

/-- `u64::checked_add` / `usize::checked_add`: fails instead of wrapping. -/
def checkedAdd (a b : Nat) : Option Nat :=
  if a + b < u64Limit then some (a + b) else none

/-- `u64::checked_sub` / `usize::checked_sub`: fails instead of wrapping. -/
def checkedSub (a b : Nat) : Option Nat :=
  if b ≤ a then some (a - b) else none

/-- `try_into` between `usize` and `u64` (both 64 bits wide on the target):
succeeds exactly when the value is representable. -/
def tryIntoU64 (n : Nat) : Option Nat :=
  if n < u64Limit then some n else none

/-! ## HashMap model: association lists with unique keys -/

/-- `HashMap::get`. -/
def getA {α : Type} (m : List (Nat × α)) (k : Nat) : Option α :=
  (m.find? (fun p => p.1 == k)).map (fun p => p.2)

/-- `HashMap::insert`: replaces any previous binding of the key. -/
def insertA {α : Type} (m : List (Nat × α)) (k : Nat) (v : α) : List (Nat × α) :=
  m.filter (fun p => p.1 != k) ++ [(k, v)]

/-- `collect::<HashMap<_, _>>()` from an iterator of pairs: later pairs
with the same key replace earlier ones. -/
def collectA {α : Type} (l : List (Nat × α)) : List (Nat × α) :=
  l.foldl (fun m p => insertA m p.1 p.2) []

/-- `HashMap::get_mut` followed by an update of the found entry;
a no-op when the key is absent. -/
def updateA {α : Type} (m : List (Nat × α)) (k : Nat) (f : α → α) : List (Nat × α) :=
  m.map (fun p => if p.1 == k then (p.1, f p.2) else p)

/-! ## Rust `slice::binary_search` on a `&[u64]` -/

/-- The standard-library binary search loop: `left`/`right` bracket the
remaining range, `mid = left + (right - left) / 2`, early return on an
exact match.  Fuel bounds the iteration count; `length + 1` units always
suffice because the range shrinks every step. -/
def binarySearchGo (l : List Nat) (target : Nat) : Nat → Nat → Nat → Option Nat
  | 0, _, _ => none
  | fuel + 1, left, right =>
    if left < right then
      let mid := left + (right - left) / 2
      if l.getD mid 0 < target then binarySearchGo l target fuel (mid + 1) right
      else if target < l.getD mid 0 then binarySearchGo l target fuel left mid
      else some mid
    else none

/-- `slice::binary_search(&target).ok()`. -/
def binary_search (l : List Nat) (target : Nat) : Option Nat :=
  binarySearchGo l target (l.length + 1) 0 l.length

/-! ## Data model -/

/-- `object::RelocationTarget`: only symbol targets are resolved by the
engine. -/
inductive RelocationTarget where
  | symbol (index : Nat)
  | sectionRef (index : Nat)
  | absolute
  deriving DecidableEq

/-- `object::Relocation`, restricted to the single field the program
reads (`r.target()`). -/
structure Relocation where
  target : RelocationTarget
  deriving DecidableEq

/-- `struct Section` from the source: name, decompressed bytes, base
address, relocation map keyed by fixup address, and the sorted list of
code-symbol addresses. -/
structure Section where
  name : String
  data : List Nat
  address : Nat
  relocations : List (Nat × Relocation)
  symbols : List Nat
  deriving DecidableEq

/-- `struct SymbolData` from the source. -/
structure SymbolData where
  name : String
  demangled : Option String
  address : Nat
  «section» : Option Section
  size : Nat
  deriving DecidableEq

/-- `iced_x86::FormatterTextKind`, restricted to the kinds the program
distinguishes. -/
inductive FormatterTextKind where
  | mnemonic
  | pre
  | register
  | number
  | text
  | other
  deriving DecidableEq

/-- `struct Instruction` from the source. -/
structure Instruction where
  address : Nat
  bytes : List Nat
  format : List (String × FormatterTextKind)
  relocation : Option SymbolData
  deriving DecidableEq

/-- `struct Assembly` from the source. -/
structure Assembly where
  instructions : List Instruction
  deriving DecidableEq

/-- `struct Object` from the source (`BinaryFormat` is kept as an opaque
tag). -/
structure Object where
  path : String
  name : String
  format : String
  symbols : List (Nat × SymbolData)
  symbols_sorted : List SymbolData
  sections : List Section
  deriving DecidableEq

/-! ## Extent estimation and data extraction -/

/-- `SymbolData::estimate_size` (src/main.rs lines 56-67), translated
bind for bind: locate the address by binary search in the section's
sorted list; for the last entry take the checked distance to the section
end, otherwise the checked distance to the next entry. -/
def SymbolData.estimate_size (s : SymbolData) : Option Nat :=
  s.«section».bind fun sec =>
    (binary_search sec.symbols s.address).bind fun i =>
      if i + 1 = sec.symbols.length then
        (tryIntoU64 sec.data.length).bind fun len =>
          (checkedAdd sec.address len).bind fun e =>
            checkedSub e s.address
      else
        checkedSub (sec.symbols.getD (i + 1) 0) s.address

/-- `<[u8]>::get(offset..end)`: succeeds exactly when
`offset ≤ end ≤ len`, returning the subslice. -/
def sliceGet (data : List Nat) (offset endIdx : Nat) : Option (List Nat) :=
  if offset ≤ endIdx ∧ endIdx ≤ data.length then
    some ((data.drop offset).take (endIdx - offset))
  else none

/-- `SymbolData::data` (src/main.rs lines 69-75). -/
def SymbolData.data (s : SymbolData) : Option (List Nat) :=
  s.«section».bind fun sec =>
    s.estimate_size.bind fun size0 =>
      (tryIntoU64 size0).bind fun size =>
        (checkedSub s.address sec.address).bind fun off0 =>
          (tryIntoU64 off0).bind fun offset =>
            (checkedAdd offset size).bind fun endIdx =>
              sliceGet sec.data offset endIdx

/-! ## Relocation lookup and resolution inside the decode loop -/

/-- The relocation scan of `SymbolData::assembly` (src/main.rs lines
100-111): for each byte offset `i` of the instruction, look the fixup
address up in the section's relocation map; every hit overwrites the
`relocation` variable, so the last matching offset wins. -/
def findReloc (sec : Section) (ip len : Nat) : Option RelocationTarget :=
  (List.range len).foldl (fun acc i =>
    match getA sec.relocations (ip + i) with
    | some r => some r.target
    | none => acc) none

/-- Resolution of a relocation target against the object's symbol map
(src/main.rs lines 113-116): only symbol targets that are present in the
map resolve. -/
def resolveTarget (symbols : List (Nat × SymbolData)) :
    Option RelocationTarget → Option SymbolData
  | some (RelocationTarget.symbol i) => getA symbols i
  | _ => none

/-! ## Formatter output -/

/-- One call the `iced_x86` formatter makes into the
`FormatterOutput` implementation: either a plain `write` (also reached
by every defaulted `write_*` method) or a `write_number`. -/
inductive FormatEvent where
  | write (text : String) (kind : FormatterTextKind)
  | writeNumber (text : String) (kind : FormatterTextKind)
  deriving DecidableEq

def eventToken : FormatEvent → String × FormatterTextKind
  | FormatEvent.write s k => (s, k)
  | FormatEvent.writeNumber s k => (s, k)

def isWriteEvent : FormatEvent → Bool
  | FormatEvent.write _ _ => true
  | FormatEvent.writeNumber _ _ => false

/-- `FormatterOutput::write` for `Instruction` (src/main.rs lines
148-150). -/
def Instruction.applyWrite (inst : Instruction) (s : String) (k : FormatterTextKind) :
    Instruction :=
  { inst with format := inst.format ++ [(s, k)] }

/-- `FormatterOutput::write_number` for `Instruction` (src/main.rs lines
152-165): the token is forwarded to `write` only when no relocation is
attached. -/
def Instruction.applyWriteNumber (inst : Instruction) (s : String) (k : FormatterTextKind) :
    Instruction :=
  if inst.relocation.isNone then inst.applyWrite s k else inst

/-- `formatter.format(&instruction, &mut inst)`: the formatter emits its
event stream into the `FormatterOutput` implementation. -/
def runFormatter (events : List FormatEvent) (inst : Instruction) : Instruction :=
  events.foldl (fun i e =>
    match e with
    | FormatEvent.write s k => i.applyWrite s k
    | FormatEvent.writeNumber s k => i.applyWriteNumber s k) inst

/-- The display name used for a resolved relocation target by the view
(src/main.rs line 403): demangled name if present, else the raw name. -/
def SymbolData.displayName (s : SymbolData) : String :=
  s.demangled.getD s.name

/-! ## The decode loop -/

/-- Oracle for the `iced_x86` decoder and formatter: at a byte position
of the symbol's data it reports the decoded instruction's length and the
format events the formatter would emit for it. -/
structure DecoderModel where
  step : List Nat → Nat → Nat × List FormatEvent

/-- The body of the decode loop (src/main.rs lines 95-126) for one
instruction: scan the instruction's byte range for relocations, resolve
the (last) found target against the symbol map, build the instruction
with its consumed byte range, and run the formatter over it.  The byte
slice is written with `drop`/`take`; the decoder never reports a length
past the end of the buffer. -/
def decodeStepInstr (secOpt : Option Section) (symbols : List (Nat × SymbolData))
    (events : List FormatEvent) (ip len : Nat) (bytes : List Nat) (pos : Nat) :
    Instruction :=
  let target := match secOpt with
    | some sec => findReloc sec ip len
    | none => none
  runFormatter events
    { address := ip
      bytes := (bytes.drop pos).take len
      format := []
      relocation := resolveTarget symbols target }

/-- The `while decoder.can_decode()` loop: the position advances by each
instruction's length until the buffer is exhausted.  Fuel bounds the
iteration count; `bytes.length + 1` units suffice because the decoder
consumes at least one byte per instruction. -/
def assemblyLoop (dm : DecoderModel) (s : SymbolData) (symbols : List (Nat × SymbolData))
    (bytes : List Nat) : Nat → Nat → List Instruction
  | _, 0 => []
  | pos, fuel + 1 =>
    if pos < bytes.length then
      let st := dm.step bytes pos
      decodeStepInstr s.«section» symbols st.2 (s.address + pos) st.1 bytes pos ::
        assemblyLoop dm s symbols bytes (pos + st.1) fuel
    else []

/-- `SymbolData::assembly` (src/main.rs lines 77-130): fails exactly when
`data()` fails, otherwise decodes the byte span into an `Assembly`. -/
def SymbolData.assembly (dm : DecoderModel) (s : SymbolData) (object : Object) :
    Option Assembly :=
  (SymbolData.data s).map fun bytes =>
    { instructions := assemblyLoop dm s object.symbols bytes 0 (bytes.length + 1) }

/-! ## Container construction (`open_object`, src/main.rs lines 183-271) -/

/-- `object::SymbolKind`. -/
inductive SymbolKind where
  | unknown
  | null
  | text
  | data
  | sect
  | file
  | label
  | tls
  deriving DecidableEq

/-- One symbol as reported by the `object` crate parser:
`name_bytes()` already passed through `from_utf8_lossy` (a failing
`name_bytes()` call is `none`), `section().index()` flattened to an
optional index. -/
structure RawSymbol where
  index : Nat
  kind : SymbolKind
  nameBytes : Option String
  address : Nat
  size : Nat
  sectionIndex : Option Nat
  deriving DecidableEq

/-- One section as reported by the parser; `nameBytes` and
`uncompressedData` are `none` when the corresponding accessor fails. -/
structure RawSection where
  index : Nat
  nameBytes : Option String
  uncompressedData : Option (List Nat)
  address : Nat
  relocations : List (Nat × Relocation)
  deriving DecidableEq

/-- A successfully parsed object file, as handed to the body of
`open_object`. -/
structure RawObject where
  format : String
  sections : List RawSection
  symbols : List RawSymbol
  deriving DecidableEq

/-- The body of the section `filter_map` of `open_object` (lines
187-203): keep the section when its name and decompressed content are
available, keyed by its native index, with an empty symbol-address list
and its relocations collected into a map. -/
def buildSectionMapStep (m : List (Nat × Section)) (rs : RawSection) :
    List (Nat × Section) :=
  match rs.nameBytes, rs.uncompressedData with
  | some nm, some d =>
    insertA m rs.index
      { name := nm
        data := d
        address := rs.address
        relocations := collectA rs.relocations
        symbols := [] }
  | _, _ => m

/-- The first stage of `open_object` (lines 186-203). -/
def buildSectionMap (raw : RawObject) : List (Nat × Section) :=
  raw.sections.foldl buildSectionMapStep []

/-- The body of the symbol-address loop (lines 206-216): push a text
symbol's address onto its section's list, skip symbols of any other
kind and symbols whose section index does not resolve. -/
def insertSymbolAddrsStep (m : List (Nat × Section)) (sym : RawSymbol) :
    List (Nat × Section) :=
  if sym.kind = SymbolKind.text then
    match sym.sectionIndex with
    | some idx =>
      updateA m idx (fun sec => { sec with symbols := sec.symbols ++ [sym.address] })
    | none => m
  else m

/-- The second stage (lines 205-216): insert every text symbol's address
into its section. -/
def insertSymbolAddrs (m : List (Nat × Section)) (syms : List RawSymbol) :
    List (Nat × Section) :=
  syms.foldl insertSymbolAddrsStep m

/-- The third stage (lines 218-224): sort each section's address list
ascending and freeze.  `sort_unstable` on `u64` is modelled by
`insertionSort`: for a linear order the sorted permutation of a list is
unique, so the two sorts agree. -/
def finalizeSections (m : List (Nat × Section)) : List (Nat × Section) :=
  m.map (fun p => (p.1, { p.2 with symbols := List.insertionSort (· ≤ ·) p.2.symbols }))

/-- The body of the symbol `filter_map` (lines 230-253): keep a text
symbol whose name is available, demangle its name, and link it to its
section when the index resolves. -/
def buildSymbolsStep (dem : String → Option String) (secMap : List (Nat × Section))
    (m : List (Nat × SymbolData)) (sym : RawSymbol) : List (Nat × SymbolData) :=
  if sym.kind = SymbolKind.text then
    match sym.nameBytes with
    | some nm =>
      insertA m sym.index
        { name := nm
          demangled := dem nm
          address := sym.address
          «section» := sym.sectionIndex.bind (fun idx => getA secMap idx)
          size := sym.size }
    | none => m
  else m

/-- The fourth stage (lines 228-254). -/
def buildSymbols (dem : String → Option String) (raw : RawObject)
    (secMap : List (Nat × Section)) : List (Nat × SymbolData) :=
  raw.symbols.foldl (buildSymbolsStep dem secMap) []

/-- The body of `open_object`'s success closure (lines 185-268),
assembled from the four stages; `sort_unstable_by` on names is modelled
by `insertionSort` over the reflexive closure of the name order. -/
def mkObject (dem : String → Option String) (raw : RawObject) (nm path : String) :
    Object :=
  let sections0 := buildSectionMap raw
  let sections1 := insertSymbolAddrs sections0 raw.symbols
  let section_map := finalizeSections sections1
  let sections := section_map.map (fun p => p.2)
  let symbols := buildSymbols dem raw section_map
  let symbols_sorted :=
    List.insertionSort (fun a b => ¬ b.name < a.name) (symbols.map (fun p => p.2))
  { path := path
    name := nm
    format := raw.format
    symbols := symbols
    symbols_sorted := symbols_sorted
    sections := sections }

/-- `mkObject` with the two run-dependent `HashMap` iteration orders
made explicit inputs.  In the source, `sections.into_iter()` (line 219)
and `section_map.values()` (line 226) enumerate the section `HashMap`,
and `symbols.values()` (line 256) enumerates the symbol `HashMap`, in an
order that depends on the map's random hash seed and so may differ
between two runs on the same buffer.  `secOrder` reorders the frozen
section map before it is used, and `symOrder` enumerates the symbol
map's values; a real run instantiates both with permutations of the
entries.  The canonical instantiation recovers `mkObject`
(`mkObjectOrd_canonical`). -/
def mkObjectOrd (secOrder : List (Nat × Section) → List (Nat × Section))
    (symOrder : List (Nat × SymbolData) → List SymbolData)
    (dem : String → Option String) (raw : RawObject) (nm path : String) :
    Object :=
  let sections0 := buildSectionMap raw
  let sections1 := insertSymbolAddrs sections0 raw.symbols
  let section_map := secOrder (finalizeSections sections1)
  let sections := section_map.map (fun p => p.2)
  let symbols := buildSymbols dem raw section_map
  let symbols_sorted :=
    List.insertionSort (fun a b => ¬ b.name < a.name) (symOrder symbols)
  { path := path
    name := nm
    format := raw.format
    symbols := symbols
    symbols_sorted := symbols_sorted
    sections := sections }

/-- The observable part of a symbol-map entry named by the determinism
claim: the symbol's identity (index) with its address and optional
demangled name. -/
def symObs (p : Nat × SymbolData) : Nat × (Nat × Option String) :=
  (p.1, (p.2.address, p.2.demangled))

/-! ## File opening (`open_file`, src/main.rs lines 273-309) -/

/-- One entry of `archive.members()`: `none` models an `Err` member,
`memberData` models `member.data(file).ok()`. -/
structure ArchiveMember where
  name : String
  memberData : Option (List Nat)
  deriving DecidableEq

/-- Oracle for the external parsers: archive parsing, object parsing and
demangling are pure functions of the input bytes. -/
structure ParseOracle where
  parseArchive : List Nat → Option (List (Option ArchiveMember))
  parseObject : List Nat → Option RawObject
  demangle : String → Option String

/-- `open_object` (lines 183-271): parse the buffer as an object; on
success append the built container, on failure produce nothing
(`.ok()` discards the error). -/
def open_object_m (oc : ParseOracle) (buf : List Nat) (nm path : String) :
    Option Object :=
  (oc.parseObject buf).map (fun raw => mkObject oc.demangle raw nm path)

/-- `open_object` with the `HashMap` iteration orders of the run made
explicit (see `mkObjectOrd`): one run of the program on a buffer is this
function at some pair of iteration orders. -/
def open_object_ord (oc : ParseOracle)
    (secOrder : List (Nat × Section) → List (Nat × Section))
    (symOrder : List (Nat × SymbolData) → List SymbolData)
    (buf : List Nat) (nm path : String) : Option Object :=
  (oc.parseObject buf).map
    (fun raw => mkObjectOrd secOrder symOrder oc.demangle raw nm path)

/-- The archive-member loop body (lines 283-295): an `Err` member or a
member whose bytes are unavailable is skipped with `.ok()`; otherwise
the member's bytes are attempted as an object. -/
def processMember (oc : ParseOracle) (path : String) (acc : List Object)
    (mem : Option ArchiveMember) : List Object :=
  match mem with
  | some m =>
    match m.memberData with
    | some d => acc ++ (open_object_m oc d m.name path).toList
    | none => acc
  | none => acc

/-- The per-file part of `open_file` (lines 282-306): when the buffer
parses as an archive every member is attempted independently, and
independently of that the whole buffer is attempted as a top-level
object.  The produced containers model the appends to the open-objects
list. -/
def open_file_buffer (oc : ParseOracle) (buf : List Nat) (topName path : String) :
    List Object :=
  let fromArchive :=
    match oc.parseArchive buf with
    | some members => members.foldl (processMember oc path) []
    | none => []
  fromArchive ++ (open_object_m oc buf topName path).toList

/-! ## Specification-side definition for the relocation-choice claim -/

/-- Modelled from the spec: the relocation associated with an
instruction is the first match in ascending byte-offset order within the
instruction ("first match wins, in ascending offset order").  To be
compared with `findReloc`, which the decode loop actually uses. -/
def findRelocFirstSpec (sec : Section) (ip len : Nat) : Option RelocationTarget :=
  (List.range len).findSome? (fun i => (getA sec.relocations (ip + i)).map Relocation.target)

/-! ## Concrete inputs used by witnesses and counterexamples -/

/-- The spec's scenario section: based at `0x1000`, `0x80` bytes, code
symbols at `0x1000` and `0x1040`. -/
def demoSec : Section :=
  { name := ".text", data := List.replicate 0x80 0, address := 0x1000,
    relocations := [], symbols := [0x1000, 0x1040] }

def fooDemo : SymbolData :=
  { name := "foo", demangled := none, address := 0x1000,
    «section» := some demoSec, size := 0 }

def barDemo : SymbolData :=
  { name := "bar", demangled := none, address := 0x1040,
    «section» := some demoSec, size := 0 }

def lowDemo : SymbolData :=
  { name := "low", demangled := none, address := 0x0F00,
    «section» := some demoSec, size := 0 }

def relocDemoSec : Section :=
  { name := ".text", data := [0x90, 0x90, 0x90, 0x90], address := 100,
    relocations := [(100, ⟨RelocationTarget.symbol 1⟩),
                    (101, ⟨RelocationTarget.symbol 2⟩)],
    symbols := [100] }

def bazSym : SymbolData :=
  { name := "_ZbazMangled", demangled := some "baz", address := 0x500,
    «section» := none, size := 0 }

def demoSymbolMap : List (Nat × SymbolData) := [(2, bazSym)]

def demoEvents : List FormatEvent :=
  [FormatEvent.write "call" FormatterTextKind.mnemonic,
   FormatEvent.write " " FormatterTextKind.text,
   FormatEvent.writeNumber "0x65" FormatterTextKind.number]

def zeroSec : Section :=
  { name := ".empty", data := [], address := 0x2000, relocations := [],
    symbols := [0x2000] }

def zeroSym : SymbolData :=
  { name := "zero", demangled := none, address := 0x2000,
    «section» := some zeroSec, size := 0 }

def demoDecoder : DecoderModel := ⟨fun _ _ => (1, [])⟩

def emptyObject : Object :=
  { path := "p", name := "o", format := "Elf", symbols := [],
    symbols_sorted := [], sections := [] }

def demoDemangle : String → Option String := fun _ => none

/-- An object reporting two code symbols with the same address `7` in
the same section. -/
def dupRaw : RawObject :=
  { format := "Elf"
    sections := [{ index := 0, nameBytes := some ".text",
                   uncompressedData := some [0, 0, 0, 0], address := 5,
                   relocations := [] }]
    symbols := [{ index := 0, kind := SymbolKind.text, nameBytes := some "a",
                  address := 7, size := 0, sectionIndex := some 0 },
                { index := 1, kind := SymbolKind.text, nameBytes := some "b",
                  address := 7, size := 0, sectionIndex := some 0 }] }

/-- The section the construction builds from `dupRaw`. -/
def dupBuiltSec : Section :=
  { name := ".text", data := [0, 0, 0, 0], address := 5, relocations := [],
    symbols := [7, 7] }

def dupSymB : SymbolData :=
  { name := "b", demangled := none, address := 7,
    «section» := some dupBuiltSec, size := 0 }

def emptyRaw : RawObject := { format := "Coff", sections := [], symbols := [] }

def validMember : ArchiveMember := { name := "good.o", memberData := some [1] }

def corruptMember : ArchiveMember := { name := "bad.o", memberData := some [2] }

/-- A parse oracle under which the buffer `[0]` is an archive holding one
valid object member (bytes `[1]`) and one corrupt member (bytes `[2]`),
and is itself not an object. -/
def demoOracle : ParseOracle :=
  { parseArchive := fun b =>
      if b = [0] then some [some validMember, some corruptMember] else none
    parseObject := fun b => if b = [1] then some emptyRaw else none
    demangle := fun _ => none }

/-! ## Helper lemmas and claim theorems -/

theorem getD_eq_getElem (l : List Nat) (i : Nat) (h : i < l.length) :
    l.getD i 0 = l[i] := by
  simp [List.getD_eq_getElem?_getD, List.getElem?_eq_getElem h]

theorem sorted_getD_le {l : List Nat} (h : List.Sorted (· ≤ ·) l) {i j : Nat}
    (hij : i ≤ j) (hj : j < l.length) : l.getD i 0 ≤ l.getD j 0 := by
  have hi : i < l.length := Nat.lt_of_le_of_lt hij hj
  rw [getD_eq_getElem l i hi, getD_eq_getElem l j hj]
  have := h.rel_get_of_le (a := ⟨i, hi⟩) (b := ⟨j, hj⟩) hij
  simpa using this

theorem binarySearchGo_sound (l : List Nat) (t : Nat) :
    ∀ fuel left right i, right ≤ l.length →
      binarySearchGo l t fuel left right = some i →
      i < l.length ∧ l.getD i 0 = t := by
  intro fuel
  induction fuel with
  | zero => intro _ _ _ _ h; simp [binarySearchGo] at h
  | succ fuel ih =>
    intro left right i hr h
    simp only [binarySearchGo] at h
    by_cases hlr : left < right
    · rw [if_pos hlr] at h
      by_cases h1 : l.getD (left + (right - left) / 2) 0 < t
      · rw [if_pos h1] at h
        exact ih _ _ _ hr h
      · rw [if_neg h1] at h
        by_cases h2 : t < l.getD (left + (right - left) / 2) 0
        · rw [if_pos h2] at h
          exact ih _ _ _ (le_trans (by omega) hr) h
        · rw [if_neg h2] at h
          cases h
          refine ⟨by omega, by omega⟩
    · rw [if_neg hlr] at h
      exact absurd h (by simp)

theorem binarySearchGo_complete (l : List Nat) (t : Nat)
    (hs : List.Sorted (· ≤ ·) l) :
    ∀ fuel left right j, right ≤ l.length → left ≤ j → j < right →
      l.getD j 0 = t → right - left ≤ fuel →
      ∃ i, binarySearchGo l t fuel left right = some i := by
  intro fuel
  induction fuel with
  | zero => intro left right j _ h1 h2 _ hf; omega
  | succ fuel ih =>
    intro left right j hr hlj hjr hjt hf
    have hlr : left < right := lt_of_le_of_lt hlj hjr
    simp only [binarySearchGo, if_pos hlr]
    set mid := left + (right - left) / 2 with hmid
    have hmidlt : mid < right := by omega
    by_cases h1 : l.getD mid 0 < t
    · have hj2 : mid + 1 ≤ j := by
        by_contra hc
        have hjm : j ≤ mid := by omega
        have := sorted_getD_le hs hjm (lt_of_lt_of_le hmidlt hr)
        omega
      rw [if_pos h1]
      exact ih (mid + 1) right j hr hj2 hjr hjt (by omega)
    · rw [if_neg h1]
      by_cases h2 : t < l.getD mid 0
      · have hj2 : j < mid := by
          by_contra hc
          have hmj : mid ≤ j := by omega
          have := sorted_getD_le hs hmj (lt_of_lt_of_le hjr hr)
          omega
        rw [if_pos h2]
        exact ih left mid j (le_trans hmidlt.le hr) hlj hj2 hjt (by omega)
      · rw [if_neg h2]
        exact ⟨mid, rfl⟩

theorem binary_search_found {l : List Nat} {t : Nat}
    (hs : List.Sorted (· ≤ ·) l) (hm : t ∈ l) :
    ∃ i, binary_search l t = some i ∧ i < l.length ∧ l.getD i 0 = t := by
  obtain ⟨j, hj, hjt⟩ := List.mem_iff_getElem.mp hm
  obtain ⟨i, hi⟩ := binarySearchGo_complete l t hs (l.length + 1) 0 l.length j
    le_rfl (Nat.zero_le _) hj (by rw [getD_eq_getElem l j hj]; exact hjt) (by omega)
  obtain ⟨h1, h2⟩ := binarySearchGo_sound l t (l.length + 1) 0 l.length i le_rfl hi
  exact ⟨i, hi, h1, h2⟩

/-- C1: for a symbol with a linked section whose sorted address list
contains the symbol's address, the binary search finds the address at
some position `i`; if `i` is the last entry the estimate is the checked
`section_base + section_byte_length - symbol_address` (returning nothing
on any overflow or underflow instead of wrapping), and otherwise it is
`next_symbol_address - symbol_address`, which cannot underflow because
the list is sorted. -/
theorem estimate_size_spec (s : SymbolData) (sec : Section)
    (hsec : s.«section» = some sec)
    (hsort : List.Sorted (· ≤ ·) sec.symbols)
    (hmem : s.address ∈ sec.symbols) :
    ∃ i, binary_search sec.symbols s.address = some i ∧ i < sec.symbols.length ∧
      sec.symbols.getD i 0 = s.address ∧
      (if i + 1 = sec.symbols.length then
        (if sec.data.length < u64Limit ∧ sec.address + sec.data.length < u64Limit ∧
            s.address ≤ sec.address + sec.data.length
         then s.estimate_size = some (sec.address + sec.data.length - s.address)
         else s.estimate_size = none)
      else s.estimate_size = some (sec.symbols.getD (i + 1) 0 - s.address)) := by
  obtain ⟨i, hbs, hlen, hval⟩ := binary_search_found hsort hmem
  refine ⟨i, hbs, hlen, hval, ?_⟩
  by_cases hlast : i + 1 = sec.symbols.length
  · rw [if_pos hlast]
    by_cases hcond : sec.data.length < u64Limit ∧
        sec.address + sec.data.length < u64Limit ∧
        s.address ≤ sec.address + sec.data.length
    · rw [if_pos hcond]
      obtain ⟨h1, h2, h3⟩ := hcond
      simp [SymbolData.estimate_size, hsec, hbs, hlast, tryIntoU64, checkedAdd,
        checkedSub, h1, h2, h3]
    · rw [if_neg hcond]
      simp only [SymbolData.estimate_size, hsec, Option.some_bind, hbs, if_pos hlast,
        tryIntoU64, checkedAdd, checkedSub]
      by_cases h1 : sec.data.length < u64Limit
      · by_cases h2 : sec.address + sec.data.length < u64Limit
        · have h3 : ¬ s.address ≤ sec.address + sec.data.length := by tauto
          simp [h1, h2, h3]
        · simp [h1, h2]
      · simp [h1]
  · rw [if_neg hlast]
    have hle : s.address ≤ sec.symbols.getD (i + 1) 0 := by
      have h := sorted_getD_le hsort (i := i) (j := i + 1) (by omega) (by omega)
      omega
    simp only [SymbolData.estimate_size, hsec, Option.some_bind, hbs, if_neg hlast,
      checkedSub, if_pos hle]

set_option maxRecDepth 8000 in
/-- Witness for C1 at the spec's scenario: both symbols estimate to
`0x40`, and the characterization applies to `foo`. -/
theorem estimate_size_spec_witness :
    fooDemo.estimate_size = some 0x40 ∧ barDemo.estimate_size = some 0x40 ∧
    (∃ i, binary_search demoSec.symbols fooDemo.address = some i ∧
      i < demoSec.symbols.length ∧
      demoSec.symbols.getD i 0 = fooDemo.address ∧
      (if i + 1 = demoSec.symbols.length then
        (if demoSec.data.length < u64Limit ∧
            demoSec.address + demoSec.data.length < u64Limit ∧
            fooDemo.address ≤ demoSec.address + demoSec.data.length
         then fooDemo.estimate_size =
            some (demoSec.address + demoSec.data.length - fooDemo.address)
         else fooDemo.estimate_size = none)
      else fooDemo.estimate_size =
        some (demoSec.symbols.getD (i + 1) 0 - fooDemo.address))) :=
  ⟨by decide, by decide, estimate_size_spec fooDemo demoSec rfl (by decide) (by decide)⟩

theorem tryIntoU64_eq_some {a b : Nat} (h : tryIntoU64 a = some b) :
    a < u64Limit ∧ b = a := by
  unfold tryIntoU64 at h
  split at h <;> simp_all

theorem checkedAdd_eq_some {a b c : Nat} (h : checkedAdd a b = some c) :
    a + b < u64Limit ∧ c = a + b := by
  unfold checkedAdd at h
  split at h <;> simp_all

theorem checkedSub_eq_some {a b c : Nat} (h : checkedSub a b = some c) :
    b ≤ a ∧ c = a - b := by
  unfold checkedSub at h
  split at h <;> simp_all

theorem sliceGet_eq_some {d : List Nat} {o e : Nat} {l : List Nat}
    (h : sliceGet d o e = some l) :
    o ≤ e ∧ e ≤ d.length ∧ l = (d.drop o).take (e - o) := by
  unfold sliceGet at h
  split at h
  · exact ⟨by tauto, by tauto, by simp_all⟩
  · cases h

/-- Inversion of a successful `data()` call. -/
theorem data_some_elim {s : SymbolData} {l : List Nat} (h : s.data = some l) :
    ∃ sec size, s.«section» = some sec ∧ s.estimate_size = some size ∧
      sec.address ≤ s.address ∧
      s.address - sec.address + size ≤ sec.data.length ∧
      l = (sec.data.drop (s.address - sec.address)).take size := by
  unfold SymbolData.data at h
  rw [Option.bind_eq_some] at h
  obtain ⟨sec, hsec, h⟩ := h
  rw [Option.bind_eq_some] at h
  obtain ⟨size0, hest, h⟩ := h
  rw [Option.bind_eq_some] at h
  obtain ⟨size, hsize, h⟩ := h
  rw [Option.bind_eq_some] at h
  obtain ⟨off0, hoff0, h⟩ := h
  rw [Option.bind_eq_some] at h
  obtain ⟨off, hoff, h⟩ := h
  rw [Option.bind_eq_some] at h
  obtain ⟨endIdx, hend, h⟩ := h
  obtain ⟨hs1, hs2⟩ := tryIntoU64_eq_some hsize
  obtain ⟨ho1, ho2⟩ := checkedSub_eq_some hoff0
  obtain ⟨ho3, ho4⟩ := tryIntoU64_eq_some hoff
  obtain ⟨he1, he2⟩ := checkedAdd_eq_some hend
  obtain ⟨hg1, hg2, hg3⟩ := sliceGet_eq_some h
  refine ⟨sec, size0, hsec, hest, ho1, by omega, ?_⟩
  rw [hg3]
  have h1 : off = s.address - sec.address := by omega
  have h2 : endIdx - off = size0 := by omega
  rw [h2, h1]

theorem data_none_of_estimate_none {s : SymbolData} (h : s.estimate_size = none) :
    s.data = none := by
  cases hd : s.data with
  | none => rfl
  | some l =>
    obtain ⟨sec, size, _, hest, _⟩ := data_some_elim hd
    rw [h] at hest
    cases hest

/-- C2: `data()` returns nothing when extent estimation fails, when the
symbol's address precedes the section base, or when the range
`[address - base, address - base + size)` exceeds the section's byte
length; any returned slice is exactly that in-bounds range of the
owning section's bytes, so it never extends past the section. -/
theorem data_in_bounds (s : SymbolData) :
    (s.estimate_size = none → s.data = none) ∧
    (∀ sec, s.«section» = some sec → s.address < sec.address → s.data = none) ∧
    (∀ sec size, s.«section» = some sec → s.estimate_size = some size →
      sec.data.length < s.address - sec.address + size → s.data = none) ∧
    (∀ l, s.data = some l → ∃ sec size, s.«section» = some sec ∧
      s.estimate_size = some size ∧ sec.address ≤ s.address ∧
      s.address - sec.address + size ≤ sec.data.length ∧
      l = (sec.data.drop (s.address - sec.address)).take size) := by
  refine ⟨fun h => data_none_of_estimate_none h, ?_, ?_, ?_⟩
  · intro sec hsec hlt
    cases hd : s.data with
    | none => rfl
    | some l =>
      obtain ⟨sec', size, hsec', _, hle, _⟩ := data_some_elim hd
      rw [hsec] at hsec'
      cases hsec'
      omega
  · intro sec size hsec hest hgt
    cases hd : s.data with
    | none => rfl
    | some l =>
      obtain ⟨sec', size', hsec', hest', hle, hbound, _⟩ := data_some_elim hd
      rw [hsec] at hsec'
      cases hsec'
      rw [hest] at hest'
      cases hest'
      omega
  · intro l hd
    obtain ⟨sec, size, hsec, hest, hle, hbound, hl⟩ := data_some_elim hd
    exact ⟨sec, size, hsec, hest, hle, hbound, hl⟩

set_option maxRecDepth 4000 in
/-- Witness for C2: a symbol whose address precedes its section's base
yields no data. -/
theorem data_in_bounds_witness : lowDemo.data = none :=
  (data_in_bounds lowDemo).2.1 demoSec rfl (by decide)

/-- C10: whenever `data()` returns a slice, `estimate_size()` returns a
value, and the slice's length equals that estimated size. -/
theorem data_length_eq_estimate (s : SymbolData) (l : List Nat)
    (h : s.data = some l) :
    ∃ size, s.estimate_size = some size ∧ l.length = size := by
  obtain ⟨sec, size, hsec, hest, hle, hbound, rfl⟩ := data_some_elim h
  refine ⟨size, hest, ?_⟩
  rw [List.length_take, List.length_drop]
  omega

set_option maxRecDepth 8000 in
/-- Witness for C10: `foo`'s data is a `0x40`-byte slice matching its
estimated size. -/
theorem data_length_eq_estimate_witness :
    ∃ size, fooDemo.estimate_size = some size ∧
      (List.replicate 0x40 (0 : Nat)).length = size :=
  data_length_eq_estimate fooDemo (List.replicate 0x40 0) (by decide)

theorem runFormatter_cons (e : FormatEvent) (rest : List FormatEvent)
    (inst : Instruction) :
    runFormatter (e :: rest) inst = runFormatter rest
      (match e with
       | FormatEvent.write s k => inst.applyWrite s k
       | FormatEvent.writeNumber s k => inst.applyWriteNumber s k) := rfl

theorem applyWriteNumber_relocation (inst : Instruction) (s : String)
    (k : FormatterTextKind) :
    (inst.applyWriteNumber s k).relocation = inst.relocation := by
  unfold Instruction.applyWriteNumber Instruction.applyWrite
  split <;> rfl

theorem runFormatter_relocation : ∀ (events : List FormatEvent) (inst : Instruction),
    (runFormatter events inst).relocation = inst.relocation := by
  intro events
  induction events with
  | nil => intro inst; rfl
  | cons e rest ih =>
    intro inst
    rw [runFormatter_cons]
    cases e with
    | write s k => rw [ih]; rfl
    | writeNumber s k => rw [ih]; exact applyWriteNumber_relocation inst s k

theorem runFormatter_format : ∀ (events : List FormatEvent) (inst : Instruction),
    (runFormatter events inst).format = inst.format ++
      (if inst.relocation.isNone then events.map eventToken
       else (events.filter isWriteEvent).map eventToken) := by
  intro events
  induction events with
  | nil => intro inst; split <;> simp [runFormatter]
  | cons e rest ih =>
    intro inst
    rw [runFormatter_cons]
    cases e with
    | write s k =>
      rw [ih]
      by_cases h : inst.relocation.isNone <;>
        simp [h, Instruction.applyWrite, eventToken, isWriteEvent]
    | writeNumber s k =>
      rw [ih]
      by_cases h : inst.relocation.isNone <;>
        simp [h, Instruction.applyWriteNumber, Instruction.applyWrite, eventToken,
          isWriteEvent]

theorem findReloc_succ (sec : Section) (ip n : Nat) :
    findReloc sec ip (n + 1) =
      match getA sec.relocations (ip + n) with
      | some r => some r.target
      | none => findReloc sec ip n := by
  unfold findReloc
  rw [List.range_succ, List.foldl_append]
  rfl

theorem findReloc_none_iff (sec : Section) (ip : Nat) : ∀ len,
    (findReloc sec ip len = none ↔
      ∀ i, i < len → getA sec.relocations (ip + i) = none) := by
  intro len
  induction len with
  | zero => simp [findReloc]
  | succ n ih =>
    rw [findReloc_succ]
    cases hg : getA sec.relocations (ip + n) with
    | some r =>
      constructor
      · intro h; cases h
      · intro h
        have := h n (Nat.lt_succ_self n)
        rw [this] at hg
        cases hg
    | none =>
      constructor
      · intro h i hi
        rcases Nat.lt_succ_iff_lt_or_eq.mp hi with h1 | h1
        · exact (ih.mp h) i h1
        · rw [h1]; exact hg
      · intro h
        exact ih.mpr (fun i hi => h i (by omega))

theorem findReloc_some_elim (sec : Section) (ip : Nat) : ∀ len t,
    findReloc sec ip len = some t →
      ∃ i, i < len ∧
        (getA sec.relocations (ip + i)).map Relocation.target = some t ∧
        ∀ j, i < j → j < len → getA sec.relocations (ip + j) = none := by
  intro len
  induction len with
  | zero => intro t h; simp [findReloc] at h
  | succ n ih =>
    intro t h
    rw [findReloc_succ] at h
    cases hg : getA sec.relocations (ip + n) with
    | some r =>
      rw [hg] at h
      cases h
      exact ⟨n, by omega, by rw [hg]; rfl, fun j hj1 hj2 => by omega⟩
    | none =>
      rw [hg] at h
      obtain ⟨i, hi, hmap, hafter⟩ := ih t h
      refine ⟨i, by omega, hmap, ?_⟩
      intro j hj1 hj2
      rcases Nat.lt_succ_iff_lt_or_eq.mp hj2 with h1 | h1
      · exact hafter j hj1 h1
      · rw [h1]; exact hg

/-- C3 counterexample: a two-byte instruction at `ip = 100` overlapped by
fixups at both of its byte offsets.  The decode loop's scan overwrites
its candidate on every hit, so it associates the relocation at offset 1
(the last match), while the first match in ascending offset order is the
relocation at offset 0; the two differ. -/
theorem reloc_choice_counterexample :
    findReloc relocDemoSec 100 2 = some (RelocationTarget.symbol 2) ∧
    findRelocFirstSpec relocDemoSec 100 2 = some (RelocationTarget.symbol 1) ∧
    RelocationTarget.symbol 2 ≠ RelocationTarget.symbol 1 :=
  ⟨by decide, by decide, by decide⟩

/-- C3 amended: at most one relocation is associated with a decoded
instruction (its `relocation` field holds the single resolved choice,
namely `findReloc`), no relocation is associated exactly when no fixup
address falls within the instruction's byte range, and when one is
chosen it is the LAST match in ascending byte-offset order within the
instruction. -/
theorem reloc_choice (sec : Section) (ip len : Nat) :
    (findReloc sec ip len = none ↔
      ∀ i, i < len → getA sec.relocations (ip + i) = none) ∧
    (∀ t, findReloc sec ip len = some t →
      ∃ i, i < len ∧
        (getA sec.relocations (ip + i)).map Relocation.target = some t ∧
        ∀ j, i < j → j < len → getA sec.relocations (ip + j) = none) ∧
    (∀ symbols events bytes pos,
      (decodeStepInstr (some sec) symbols events ip len bytes pos).relocation =
        resolveTarget symbols (findReloc sec ip len)) := by
  refine ⟨findReloc_none_iff sec ip len, findReloc_some_elim sec ip len, ?_⟩
  intro symbols events bytes pos
  unfold decodeStepInstr
  rw [runFormatter_relocation]

/-- Witness for C3 (amended) at the counterexample section: the chosen
relocation is the one at the last matching offset. -/
theorem reloc_choice_witness :
    ∃ i, i < 2 ∧
      (getA relocDemoSec.relocations (100 + i)).map Relocation.target =
        some (RelocationTarget.symbol 2) ∧
      ∀ j, i < j → j < 2 → getA relocDemoSec.relocations (100 + j) = none :=
  (reloc_choice relocDemoSec 100 2).2.1 (RelocationTarget.symbol 2) (by decide)

/-- C4: when the relocation found in a decoded instruction's byte range
resolves (it has a symbol target present in the object's symbol map),
every numeric token the formatter emits is suppressed, so only plain
write tokens reach the instruction's token list, and the instruction
carries the resolved symbol, whose display name is its demangled name if
present, else its raw name; when resolution fails the numeric tokens are
emitted unchanged, and resolution fails whenever the found target is not
a symbol target or is a symbol index absent from the map. -/
theorem relocation_substitution (sec : Section) (symbols : List (Nat × SymbolData))
    (events : List FormatEvent) (ip len : Nat) (bytes : List Nat) (pos : Nat) :
    (∀ sym, resolveTarget symbols (findReloc sec ip len) = some sym →
      (decodeStepInstr (some sec) symbols events ip len bytes pos).format =
        (events.filter isWriteEvent).map eventToken ∧
      (decodeStepInstr (some sec) symbols events ip len bytes pos).relocation =
        some sym ∧
      sym.displayName = sym.demangled.getD sym.name) ∧
    (resolveTarget symbols (findReloc sec ip len) = none →
      (decodeStepInstr (some sec) symbols events ip len bytes pos).format =
        events.map eventToken) ∧
    (∀ i, findReloc sec ip len = some (RelocationTarget.symbol i) →
      getA symbols i = none →
      resolveTarget symbols (findReloc sec ip len) = none) ∧
    (∀ t, findReloc sec ip len = some t →
      (∀ i, t ≠ RelocationTarget.symbol i) →
      resolveTarget symbols (findReloc sec ip len) = none) := by
  refine ⟨?_, ?_, ?_, ?_⟩
  · intro sym h
    unfold decodeStepInstr
    refine ⟨?_, ?_, rfl⟩
    · rw [runFormatter_format]
      simp [h]
    · rw [runFormatter_relocation]
      exact h
  · intro h
    unfold decodeStepInstr
    rw [runFormatter_format]
    simp [h]
  · intro i h hnone
    rw [h]
    unfold resolveTarget
    exact hnone
  · intro t ht hne
    rw [ht]
    cases t with
    | symbol i => exact absurd rfl (hne i)
    | sectionRef i => rfl
    | absolute => rfl

/-- Witness for C4: a resolving relocation suppresses the numeric token
`0x65` and attaches the symbol displayed as its demangled name. -/
theorem relocation_substitution_witness :
    (decodeStepInstr (some relocDemoSec) demoSymbolMap demoEvents 100 2
        [0x90, 0x90] 0).format = (demoEvents.filter isWriteEvent).map eventToken ∧
    (decodeStepInstr (some relocDemoSec) demoSymbolMap demoEvents 100 2
        [0x90, 0x90] 0).relocation = some bazSym ∧
    bazSym.displayName = bazSym.demangled.getD bazSym.name :=
  (relocation_substitution relocDemoSec demoSymbolMap demoEvents 100 2
    [0x90, 0x90] 0).1 bazSym (by decide)

/-- C7: a symbol whose `data()` is an empty slice still assembles
successfully, yielding an Assembly with an empty instruction sequence
rather than a failure. -/
theorem assembly_empty (dm : DecoderModel) (s : SymbolData) (object : Object)
    (h : SymbolData.data s = some []) :
    SymbolData.assembly dm s object = some { instructions := [] } := by
  unfold SymbolData.assembly
  rw [h]
  rfl

set_option maxRecDepth 4000 in
/-- Witness for C7: a symbol spanning a zero-length extent of an empty
section assembles to an empty instruction list. -/
theorem assembly_empty_witness :
    SymbolData.assembly demoDecoder zeroSym emptyObject = some { instructions := [] } :=
  assembly_empty demoDecoder zeroSym emptyObject (by decide)

theorem mem_insertA {α : Type} {m : List (Nat × α)} {k : Nat} {v : α}
    {p : Nat × α} (h : p ∈ insertA m k v) : p ∈ m ∨ p = (k, v) := by
  unfold insertA at h
  rcases List.mem_append.mp h with h | h
  · exact Or.inl (List.mem_of_mem_filter h)
  · exact Or.inr (List.mem_singleton.mp h)

theorem mem_updateA {α : Type} {m : List (Nat × α)} {k : Nat} {f : α → α}
    {p : Nat × α} (h : p ∈ updateA m k f) :
    ∃ q ∈ m, p = q ∨ p = (q.1, f q.2) := by
  unfold updateA at h
  obtain ⟨q, hq, hpq⟩ := List.mem_map.mp h
  refine ⟨q, hq, ?_⟩
  split at hpq
  · exact Or.inr hpq.symm
  · exact Or.inl hpq.symm

theorem mem_finalizeSections {m : List (Nat × Section)} {p : Nat × Section}
    (h : p ∈ finalizeSections m) :
    ∃ q ∈ m, p = (q.1, { q.2 with symbols := List.insertionSort (· ≤ ·) q.2.symbols }) := by
  unfold finalizeSections at h
  obtain ⟨q, hq, hpq⟩ := List.mem_map.mp h
  exact ⟨q, hq, hpq.symm⟩

/-- C5 counterexample: two distinct code symbols sharing address `7`
leave a duplicate in the constructed section's address list, so the list
is not strictly ascending. -/
theorem sections_sorted_counterexample :
    ((mkObject demoDemangle dupRaw "x" "p").sections.map (fun s => s.symbols)) =
      [[7, 7]] ∧
    ¬ List.Sorted (· < ·) ([7, 7] : List Nat) := by
  refine ⟨by decide, ?_⟩
  intro h
  rw [List.sorted_cons] at h
  exact absurd (h.1 7 (List.mem_singleton.mpr rfl)) (lt_irrefl 7)

/-- C5 amended: after construction every section's recorded
symbol-address list is sorted ascending (non-decreasing; duplicate
addresses are kept when distinct code symbols share an address), for any
input ordering of the object's symbols, and, the model being pure, it is
never mutated afterwards. -/
theorem sections_sorted (dem : String → Option String) (raw : RawObject)
    (nm path : String) :
    ∀ sec ∈ (mkObject dem raw nm path).sections, List.Sorted (· ≤ ·) sec.symbols := by
  intro sec hsec
  have hsec' : sec ∈ (finalizeSections (insertSymbolAddrs (buildSectionMap raw)
      raw.symbols)).map (fun p => p.2) := by
    simpa [mkObject] using hsec
  obtain ⟨p, hp, rfl⟩ := List.mem_map.mp hsec'
  obtain ⟨q, hq, rfl⟩ := mem_finalizeSections hp
  exact List.sorted_insertionSort _ _

set_option maxRecDepth 4000 in
/-- Witness for C5 (amended) on the duplicate-address object: its built
section's list `[7, 7]` is sorted ascending. -/
theorem sections_sorted_witness : List.Sorted (· ≤ ·) dupBuiltSec.symbols :=
  sections_sorted demoDemangle dupRaw "x" "p" dupBuiltSec (by decide)

theorem buildSymbolsStep_mem {dem : String → Option String}
    {secMap : List (Nat × Section)} {m : List (Nat × SymbolData)}
    {sym : RawSymbol} {p : Nat × SymbolData}
    (h : p ∈ buildSymbolsStep dem secMap m sym) :
    p ∈ m ∨ (sym.kind = SymbolKind.text ∧ sym.index = p.1 ∧
      sym.address = p.2.address) := by
  unfold buildSymbolsStep at h
  split at h
  · split at h
    · rcases mem_insertA h with h1 | h1
      · exact Or.inl h1
      · rw [h1]
        exact Or.inr ⟨by assumption, rfl, rfl⟩
    · exact Or.inl h
  · exact Or.inl h

theorem buildSymbols_mem (dem : String → Option String)
    (secMap : List (Nat × Section)) :
    ∀ (syms : List RawSymbol) (acc : List (Nat × SymbolData)) (p : Nat × SymbolData),
      p ∈ syms.foldl (buildSymbolsStep dem secMap) acc →
      p ∈ acc ∨ ∃ rs ∈ syms, rs.kind = SymbolKind.text ∧ rs.index = p.1 ∧
        rs.address = p.2.address := by
  intro syms
  induction syms with
  | nil => intro acc p h; exact Or.inl h
  | cons s rest ih =>
    intro acc p h
    rw [List.foldl_cons] at h
    rcases ih _ p h with h1 | h1
    · rcases buildSymbolsStep_mem h1 with h2 | h2
      · exact Or.inl h2
      · exact Or.inr ⟨s, List.mem_cons_self _ _, h2⟩
    · obtain ⟨rs, hrs, h2⟩ := h1
      exact Or.inr ⟨rs, List.mem_cons_of_mem _ hrs, h2⟩

theorem buildSectionMap_symbols_nil :
    ∀ (sections : List RawSection) (acc : List (Nat × Section)),
      (∀ p ∈ acc, p.2.symbols = ([] : List Nat)) →
      ∀ p ∈ sections.foldl buildSectionMapStep acc, p.2.symbols = [] := by
  intro sections
  induction sections with
  | nil => intro acc hacc p hp; exact hacc p hp
  | cons rs rest ih =>
    intro acc hacc p hp
    rw [List.foldl_cons] at hp
    refine ih _ ?_ p hp
    intro q hq
    unfold buildSectionMapStep at hq
    split at hq
    · rcases mem_insertA hq with h1 | h1
      · exact hacc q h1
      · rw [h1]
    · exact hacc q hq

theorem insertSymbolAddrs_mem :
    ∀ (syms : List RawSymbol) (m : List (Nat × Section)) (p : Nat × Section),
      p ∈ insertSymbolAddrs m syms →
      ∀ a ∈ p.2.symbols,
        (∃ q ∈ m, a ∈ q.2.symbols) ∨
        ∃ rs ∈ syms, rs.kind = SymbolKind.text ∧ rs.address = a := by
  intro syms
  induction syms with
  | nil =>
    intro m p hp a ha
    exact Or.inl ⟨p, hp, ha⟩
  | cons s rest ih =>
    intro m p hp a ha
    rw [insertSymbolAddrs, List.foldl_cons] at hp
    rcases ih _ p hp a ha with h1 | h1
    · obtain ⟨q, hq, haq⟩ := h1
      unfold insertSymbolAddrsStep at hq
      by_cases htext : s.kind = SymbolKind.text
      · rw [if_pos htext] at hq
        cases hsi : s.sectionIndex with
        | some idx =>
          rw [hsi] at hq
          obtain ⟨q0, hq0, hcase⟩ := mem_updateA hq
          rcases hcase with h2 | h2
          · rw [h2] at haq
            exact Or.inl ⟨q0, hq0, haq⟩
          · rw [h2] at haq
            rcases List.mem_append.mp haq with h3 | h3
            · exact Or.inl ⟨q0, hq0, h3⟩
            · rw [List.mem_singleton.mp h3]
              exact Or.inr ⟨s, List.mem_cons_self _ _, htext, rfl⟩
        | none =>
          rw [hsi] at hq
          exact Or.inl ⟨q, hq, haq⟩
      · rw [if_neg htext] at hq
        exact Or.inl ⟨q, hq, haq⟩
    · obtain ⟨rs, hrs, h2⟩ := h1
      exact Or.inr ⟨rs, List.mem_cons_of_mem _ hrs, h2⟩

/-- C6: everything in the constructed model originates from a text
(executable code) symbol: every entry of the Container's symbol map is
built from a text symbol of the input with the same index and address,
and every address recorded in any Section's list is the address of a
text symbol of the input — so symbols of any other kind (data, debug,
file, section) appear in neither place and never influence extent
estimation of neighboring code symbols. -/
theorem only_text_symbols (dem : String → Option String) (raw : RawObject)
    (nm path : String) :
    (∀ p ∈ (mkObject dem raw nm path).symbols,
      ∃ rs ∈ raw.symbols, rs.kind = SymbolKind.text ∧ rs.index = p.1 ∧
        rs.address = p.2.address) ∧
    (∀ sec ∈ (mkObject dem raw nm path).sections, ∀ a ∈ sec.symbols,
      ∃ rs ∈ raw.symbols, rs.kind = SymbolKind.text ∧ rs.address = a) := by
  constructor
  · intro p hp
    have hp' : p ∈ raw.symbols.foldl
        (buildSymbolsStep dem (finalizeSections (insertSymbolAddrs
          (buildSectionMap raw) raw.symbols))) [] := by
      simpa [mkObject, buildSymbols] using hp
    rcases buildSymbols_mem _ _ raw.symbols [] p hp' with h | h
    · cases h
    · exact h
  · intro sec hsec a ha
    have hsec' : sec ∈ (finalizeSections (insertSymbolAddrs (buildSectionMap raw)
        raw.symbols)).map (fun p => p.2) := by
      simpa [mkObject] using hsec
    obtain ⟨p, hp, rfl⟩ := List.mem_map.mp hsec'
    obtain ⟨q, hq, rfl⟩ := mem_finalizeSections hp
    have ha' : a ∈ q.2.symbols := by
      have hperm := List.perm_insertionSort (α := Nat) (· ≤ ·) q.2.symbols
      exact hperm.mem_iff.mp ha
    rcases insertSymbolAddrs_mem raw.symbols (buildSectionMap raw) q hq a ha' with h | h
    · obtain ⟨q0, hq0, haq0⟩ := h
      have hnil : q0.2.symbols = [] := by
        refine buildSectionMap_symbols_nil raw.sections [] ?_ q0 hq0
        intro r hr
        cases hr
      rw [hnil] at haq0
      cases haq0
    · exact h

set_option maxRecDepth 4000 in
/-- Witness for C6 on the duplicate-address object: the map entry at
index 1 originates from a text symbol of the input. -/
theorem only_text_symbols_witness :
    ∃ rs ∈ dupRaw.symbols, rs.kind = SymbolKind.text ∧ rs.index = 1 ∧
      rs.address = 7 :=
  (only_text_symbols demoDemangle dupRaw "x" "p").1 (1, dupSymB) (by decide)

theorem processMember_corrupt (oc : ParseOracle) (path : String)
    (acc : List Object) {mem : Option ArchiveMember}
    (h : mem = none ∨ ∃ m, mem = some m ∧ (m.memberData = none ∨
      ∃ d, m.memberData = some d ∧ oc.parseObject d = none)) :
    processMember oc path acc mem = acc := by
  rcases h with rfl | ⟨m, rfl, h⟩
  · rfl
  · show (match m.memberData with
      | some d => acc ++ (open_object_m oc d m.name path).toList
      | none => acc) = acc
    rcases h with h | ⟨d, hd, hp⟩
    · rw [h]
    · rw [hd]
      simp [open_object_m, hp]

/-- C8: a corrupt archive member (an unreadable member record, a member
whose bytes are unavailable, or a member that does not parse as an
object) contributes nothing and does not abort the remaining members —
removing it from the member list leaves the produced containers
unchanged — and a buffer that parses neither as an archive nor as an
object produces no container at all (and the model surfaces no error:
the operation still returns). -/
theorem open_file_skips_corrupt (oc : ParseOracle) (buf : List Nat)
    (topName path : String) :
    (∀ ms1 ms2 bad, oc.parseArchive buf = some (ms1 ++ bad :: ms2) →
      (bad = none ∨ ∃ m, bad = some m ∧ (m.memberData = none ∨
        ∃ d, m.memberData = some d ∧ oc.parseObject d = none)) →
      open_file_buffer oc buf topName path =
        ((ms1 ++ ms2).foldl (processMember oc path) []) ++
          (open_object_m oc buf topName path).toList) ∧
    (oc.parseArchive buf = none → oc.parseObject buf = none →
      open_file_buffer oc buf topName path = []) := by
  constructor
  · intro ms1 ms2 bad harch hbad
    unfold open_file_buffer
    rw [harch]
    show List.foldl (processMember oc path) [] (ms1 ++ bad :: ms2) ++
        (open_object_m oc buf topName path).toList =
      List.foldl (processMember oc path) [] (ms1 ++ ms2) ++
        (open_object_m oc buf topName path).toList
    congr 1
    rw [List.foldl_append, List.foldl_cons, List.foldl_append]
    rw [processMember_corrupt oc path _ hbad]
  · intro h1 h2
    unfold open_file_buffer
    rw [h1]
    show ([] : List Object) ++ (open_object_m oc buf topName path).toList = []
    simp [open_object_m, h2]

/-- Witness for C8 at the spec's scenario: the archive with one valid
and one corrupt member yields the same containers as without the corrupt
member — exactly one container. -/
theorem open_file_skips_corrupt_witness :
    open_file_buffer demoOracle [0] "top" "p" =
      (([some validMember] ++ []).foldl (processMember demoOracle "p") []) ++
        (open_object_m demoOracle [0] "top" "p").toList ∧
    (open_file_buffer demoOracle [0] "top" "p").length = 1 :=
  ⟨(open_file_skips_corrupt demoOracle [0] "top" "p").1 [some validMember] []
      (some corruptMember) (by decide)
      (Or.inr ⟨corruptMember, rfl, Or.inr ⟨[2], rfl, by decide⟩⟩),
    by decide⟩

theorem mkObjectOrd_canonical (dem : String → Option String) (raw : RawObject)
    (nm path : String) :
    mkObjectOrd (fun m => m) (fun m => m.map (fun p => p.2)) dem raw nm path =
      mkObject dem raw nm path := rfl

theorem getA_cons {α : Type} (k : Nat) (v : α) (rest : List (Nat × α)) (i : Nat) :
    getA ((k, v) :: rest) i = if k == i then some v else getA rest i := by
  unfold getA
  rw [List.find?_cons]
  by_cases h : k == i
  · simp [h]
  · simp [h]

theorem map_symObs_filter (m : List (Nat × SymbolData)) (k : Nat) :
    (m.filter (fun p => p.1 != k)).map symObs =
      (m.map symObs).filter (fun q => q.1 != k) := by
  induction m with
  | nil => rfl
  | cons p rest ih =>
    rw [List.filter_cons, List.map_cons, List.filter_cons]
    by_cases h : (p.1 != k) = true
    · rw [if_pos h, List.map_cons, ih,
        if_pos (show ((symObs p).1 != k) = true from h)]
    · rw [if_neg h, ih, if_neg (show ¬ ((symObs p).1 != k) = true from h)]

theorem map_symObs_insertA (m : List (Nat × SymbolData)) (k : Nat) (v : SymbolData) :
    (insertA m k v).map symObs =
      (m.map symObs).filter (fun q => q.1 != k) ++ [(k, (v.address, v.demangled))] := by
  unfold insertA
  rw [List.map_append, map_symObs_filter]
  rfl

theorem buildSymbolsStep_map_symObs (dem : String → Option String)
    (secMap1 secMap2 : List (Nat × Section)) (s : RawSymbol)
    {m1 m2 : List (Nat × SymbolData)} (h : m1.map symObs = m2.map symObs) :
    (buildSymbolsStep dem secMap1 m1 s).map symObs =
      (buildSymbolsStep dem secMap2 m2 s).map symObs := by
  unfold buildSymbolsStep
  by_cases hkind : s.kind = SymbolKind.text
  · rw [if_pos hkind, if_pos hkind]
    cases hnb : s.nameBytes with
    | none => exact h
    | some nm =>
      rw [map_symObs_insertA, map_symObs_insertA, h]
  · rw [if_neg hkind, if_neg hkind]
    exact h

theorem buildSymbols_map_symObs (dem : String → Option String)
    (secMap1 secMap2 : List (Nat × Section)) :
    ∀ (syms : List RawSymbol) (m1 m2 : List (Nat × SymbolData)),
      m1.map symObs = m2.map symObs →
      (syms.foldl (buildSymbolsStep dem secMap1) m1).map symObs =
        (syms.foldl (buildSymbolsStep dem secMap2) m2).map symObs := by
  intro syms
  induction syms with
  | nil => intro m1 m2 h; exact h
  | cons s rest ih =>
    intro m1 m2 h
    rw [List.foldl_cons, List.foldl_cons]
    exact ih _ _ (buildSymbolsStep_map_symObs dem secMap1 secMap2 s h)

theorem getA_of_map_symObs :
    ∀ (m1 m2 : List (Nat × SymbolData)), m1.map symObs = m2.map symObs →
      ∀ i, (getA m1 i).map (fun s => (s.address, s.demangled)) =
        (getA m2 i).map (fun s => (s.address, s.demangled)) := by
  intro m1
  induction m1 with
  | nil =>
    intro m2 h i
    cases m2 with
    | nil => rfl
    | cons q rest2 => cases h
  | cons p rest ih =>
    intro m2 h i
    cases m2 with
    | nil => cases h
    | cons q rest2 =>
      obtain ⟨k, v⟩ := p
      obtain ⟨k2, v2⟩ := q
      rw [List.map_cons, List.map_cons] at h
      injection h with h1 h2
      simp only [symObs, Prod.mk.injEq] at h1
      obtain ⟨hk, haddr, hdem⟩ := h1
      subst hk
      rw [getA_cons, getA_cons]
      by_cases hki : k == i
      · rw [if_pos hki, if_pos hki]
        simp [haddr, hdem]
      · rw [if_neg hki, if_neg hki]
        exact ih rest2 h2 i

/-- C9: parsing the same byte buffer twice yields Containers that agree
on the number of symbols and, at every symbol index, on the symbol's
address and optional demangled name.  The run-dependent `HashMap`
iteration orders (random hash seeds) are modelled as explicit inputs of
`open_object_ord`; the two runs may choose them arbitrarily and still
agree on the claimed observables, which is what makes parsing
deterministic in those observables. -/
theorem open_object_deterministic (oc : ParseOracle) (buf : List Nat)
    (nm path : String)
    (so1 so2 : List (Nat × Section) → List (Nat × Section))
    (yo1 yo2 : List (Nat × SymbolData) → List SymbolData) :
    ((open_object_ord oc so1 yo1 buf nm path).map (fun o => o.symbols.length) =
      (open_object_ord oc so2 yo2 buf nm path).map (fun o => o.symbols.length)) ∧
    (∀ i, ((open_object_ord oc so1 yo1 buf nm path).bind
        (fun o => getA o.symbols i)).map (fun s => (s.address, s.demangled)) =
      ((open_object_ord oc so2 yo2 buf nm path).bind
        (fun o => getA o.symbols i)).map (fun s => (s.address, s.demangled))) := by
  cases hp : oc.parseObject buf with
  | none =>
    constructor
    · simp [open_object_ord, hp]
    · intro i
      simp [open_object_ord, hp]
  | some raw =>
    have hmap : (buildSymbols oc.demangle raw
        (so1 (finalizeSections (insertSymbolAddrs (buildSectionMap raw)
          raw.symbols)))).map symObs =
      (buildSymbols oc.demangle raw
        (so2 (finalizeSections (insertSymbolAddrs (buildSectionMap raw)
          raw.symbols)))).map symObs :=
      buildSymbols_map_symObs oc.demangle _ _ raw.symbols [] [] rfl
    constructor
    · have hlen := congrArg List.length hmap
      rw [List.length_map, List.length_map] at hlen
      simp only [open_object_ord, hp, Option.map_some']
      exact congrArg some hlen
    · intro i
      simp only [open_object_ord, hp, Option.map_some', Option.some_bind]
      exact getA_of_map_symObs _ _ hmap i

end AsmViewer
